import Mathlib

/-!
Verification of the frequency-domain image mixer (`src/app/core/mixer.py`).

The Python source works with numpy float64/complex128 arrays; we embed it
shallowly over `ℝ` and `ℂ` (exact real arithmetic, the idealisation of the
floating-point code).  Arrays are embedded as a pair of dimensions together
with a total index function; numpy's broadcasting rules and its runtime
errors (IndexError on list access, ValueError on incompatible broadcasts,
Python's UnboundLocalError in `__apply_region_mask` for an unknown mode)
are modelled explicitly, with fallible operations returning `Except`.
-/

noncomputable section

open Finset

/-! ### Strings appearing in the source -/

def noneText : String := "None"

def innerText : String := "Inner"

def outerText : String := "Outer"

def ftMagnitudeText : String := "FT Magnitude"

def ftPhaseText : String := "FT Phase"

def ftRealText : String := "FT Real"

def ftImaginaryText : String := "FT Imaginary"

def textHighFreqOuter : String := "High-Frequency (Outer)"

def textLowInnerRegion : String := "Low (Inner) Region"

def textOff : String := "Off"

/-- Predicate: `leadsWith pat l` is true when `pat` is an initial segment of `l`. -/
def leadsWith : List Char → List Char → Bool
  | [], _ => true
  | _ :: _, [] => false
  | a :: as, b :: bs => a == b && leadsWith as bs

/-- Predicate: `subAt pat l` holds when `pat` occurs contiguously somewhere in `l`
(the semantics of Python's `needle in haystack` on strings). -/
def subAt : List Char → List Char → Bool
  | pat, [] => leadsWith pat []
  | pat, c :: rest => leadsWith pat (c :: rest) || subAt pat rest

/-- Python's `needle in hay` for strings: contiguous substring test. -/
def strContainsSub (needle hay : String) : Bool :=
  subAt needle.data hay.data

/-! ### Mixer object state and `set_region_mode`

The `Mixer` object holds the region-mode string and two opaque UI label
references (type parameter `L`); `__init__` sets the mode to `"None"`. -/

structure MixerState (L : Type) where
  region_mode : String
  output_label_1 : Option L
  output_label_2 : Option L

def mixerInit (L : Type) : MixerState L :=
  ⟨noneText, none, none⟩

/-- Model of `Mixer.set_region_mode`: maps segmented control text to internal mode. -/
def set_region_mode {L : Type} (s : MixerState L) (mode : String) : MixerState L :=
  { s with
    region_mode :=
      if strContainsSub innerText mode then innerText
      else if strContainsSub outerText mode then outerText
      else noneText }

/-! ### The Gaussian mask (`Mixer.__create_gaussian_mask`) -/

def center_x (width : ℕ) : ℕ := width / 2

def center_y (height : ℕ) : ℕ := height / 2

/-- The source's `X ** 2 + Y ** 2` at grid point `(y, x)`: squared distance from the
integer centre `(height // 2, width // 2)`. -/
def distance_sq (height width y x : ℕ) : ℝ :=
  ((x : ℝ) - (center_x width : ℕ)) ^ 2 + ((y : ℝ) - (center_y height : ℕ)) ^ 2

/-- Model of `Mixer.__create_gaussian_mask`:
`mask = np.exp(-distance_sq / (2.0 * (float(sigma) ** 2 + 1e-6)))`. -/
def create_gaussian_mask (height width : ℕ) (sigma : ℝ) : ℕ → ℕ → ℝ :=
  fun y x =>
    Real.exp (-(distance_sq height width y x) / (2 * (sigma ^ 2 + 1e-6)))

/-! ### numpy arrays, broadcasting, and errors -/

/-- A numpy complex 2-D array: its shape and its entries. -/
structure NpArr where
  h : ℕ
  w : ℕ
  f : ℕ → ℕ → ℂ

/-- The 8-bit output image (`np.uint8` entries modelled as `ℕ`). -/
structure ImgN where
  h : ℕ
  w : ℕ
  f : ℕ → ℕ → ℕ

def zeroImg (H W : ℕ) : ImgN := ⟨H, W, fun _ _ => 0⟩

/-- Runtime errors of the Python code. -/
inductive NpError where
  | indexError : NpError
  | broadcastError : NpError
  | unboundLocal : NpError
deriving DecidableEq

/-- numpy broadcast of a pair of dimension sizes. -/
def bcastDim (a b : ℕ) : Option ℕ :=
  if a = b then some a else if a = 1 then some b else if b = 1 then some a else none

/-- Index into an axis of size `n` from a broadcast context: a size-1 axis is
read at 0. -/
def bidx (n i : ℕ) : ℕ := if n = 1 then 0 else i

/-- Elementwise product of a complex array with a real mask of shape
`(mh, mw)`, with numpy broadcasting; raises `ValueError` when the shapes are
incompatible. -/
def mulMask (a : NpArr) (mh mw : ℕ) (m : ℕ → ℕ → ℝ) : Except NpError NpArr :=
  match bcastDim a.h mh, bcastDim a.w mw with
  | some rh, some rw =>
      .ok ⟨rh, rw, fun y x =>
        a.f (bidx a.h y) (bidx a.w x) * ((m (bidx mh y) (bidx mw x) : ℝ) : ℂ)⟩
  | _, _ => .error .broadcastError

/-- In-place `combined += b` on an accumulator of shape `(acc.h, acc.w)`:
`b` must broadcast to exactly the accumulator's shape. -/
def addInPlace (acc b : NpArr) : Except NpError NpArr :=
  if (b.h = acc.h ∨ b.h = 1) ∧ (b.w = acc.w ∨ b.w = 1) then
    .ok ⟨acc.h, acc.w, fun y x => acc.f y x + b.f (bidx b.h y) (bidx b.w x)⟩
  else .error .broadcastError

/-- Model of `Mixer.__apply_region_mask`.  `"None"` returns the data unchanged;
`"Inner"` multiplies by the Gaussian mask; `"Outer"` by `1.0 - gaussian_mask`;
any other mode leaves the local `mask` unbound (Python `UnboundLocalError`). -/
def apply_region_mask (mode : String) (ft_data : NpArr) (mh mw : ℕ)
    (gmask : ℕ → ℕ → ℝ) : Except NpError NpArr :=
  if mode = noneText then .ok ft_data
  else if mode = innerText then mulMask ft_data mh mw gmask
  else if mode = outerText then mulMask ft_data mh mw (fun y x => 1 - gmask y x)
  else .error .unboundLocal

/-! ### The discrete Fourier transform (`np.fft`) -/

/-- Entry `(u, v)` of `np.fft.fft2` on `(u, v)` of an `H × W` array:
`Σ_y Σ_x f[y,x] · exp(-2πi(uy/H + vx/W))` (numpy's unnormalised forward
transform). -/
def fft2val (H W : ℕ) (f : ℕ → ℕ → ℂ) (u v : ℕ) : ℂ :=
  ∑ y in Finset.range H, ∑ x in Finset.range W,
    f y x * Complex.exp (-(2 * (Real.pi : ℂ) * Complex.I) *
      ((u : ℂ) * (y : ℂ) / (H : ℂ) + (v : ℂ) * (x : ℂ) / (W : ℂ)))

/-- Entry `(y, x)` of `np.fft.ifft2`: the inverse transform, normalised by
`1/(H·W)`. -/
def ifft2val (H W : ℕ) (g : ℕ → ℕ → ℂ) (y x : ℕ) : ℂ :=
  (1 / ((H : ℂ) * (W : ℂ))) * ∑ u in Finset.range H, ∑ v in Finset.range W,
    g u v * Complex.exp ((2 * (Real.pi : ℂ) * Complex.I) *
      ((u : ℂ) * (y : ℂ) / (H : ℂ) + (v : ℂ) * (x : ℂ) / (W : ℂ)))

/-- The complex root of unity `exp(2πi m / N)`. -/
def cisN (N : ℕ) (m : ℤ) : ℂ :=
  Complex.exp (2 * (Real.pi : ℂ) * Complex.I * (m : ℂ) / (N : ℂ))

/-- 1-D unnormalised forward DFT (negative exponent). -/
def dft1 (N : ℕ) (g : ℕ → ℂ) (k : ℕ) : ℂ :=
  ∑ j in Finset.range N, g j * cisN N (-((k : ℤ) * (j : ℤ)))

/-- 1-D unnormalised transform with positive exponent (arises as the
conjugate of the forward transform of real data). -/
def cdft1 (N : ℕ) (g : ℕ → ℂ) (k : ℕ) : ℂ :=
  ∑ j in Finset.range N, g j * cisN N ((k : ℤ) * (j : ℤ))

/-- 1-D normalised inverse DFT. -/
def idft1 (N : ℕ) (g : ℕ → ℂ) (j : ℕ) : ℂ :=
  (1 / (N : ℂ)) * ∑ k in Finset.range N, g k * cisN N ((k : ℤ) * (j : ℤ))

/-- A caller-supplied image: a 2-D grid of real intensity samples. -/
structure PyImage where
  height : ℕ
  width : ℕ
  data : ℕ → ℕ → ℝ

/-- Model of `np.fft.fft2(image)`: transform over the image's own shape. -/
def fft2 (img : PyImage) : NpArr :=
  ⟨img.height, img.width,
    fun u v => fft2val img.height img.width (fun y x => ((img.data y x : ℝ) : ℂ)) u v⟩

/-- Model of `np.fft.fftshift`: cyclic roll by `n // 2` along each axis. -/
def fftshiftA (a : NpArr) : NpArr :=
  ⟨a.h, a.w, fun u v =>
    a.f ((u + a.h - a.h / 2) % a.h) ((v + a.w - a.w / 2) % a.w)⟩

/-- Model of `np.fft.ifftshift`: cyclic roll by `-(n // 2)` along each axis. -/
def ifftshiftF (H W : ℕ) (f : ℕ → ℕ → ℂ) : ℕ → ℕ → ℂ :=
  fun y x => f ((y + H / 2) % H) ((x + W / 2) % W)

/-! ### Per-slot weighted components -/

/-- The source's `weight * magnitude * np.exp(1j * phase)` (the `"FT Magnitude"` branch). -/
def magWeighted (w : ℝ) (z : ℂ) : ℂ :=
  (w : ℂ) * ((Complex.abs z : ℝ) : ℂ) * Complex.exp (Complex.I * (z.arg : ℂ))

/-- The source's `weight * np.exp(1j * phase)` (the `"FT Phase"` branch). -/
def phaseWeighted (w : ℝ) (z : ℂ) : ℂ :=
  (w : ℂ) * Complex.exp (Complex.I * (z.arg : ℂ))

/-- The source's `weight * (real_part + 0j)` (the `"FT Real"` branch). -/
def realWeighted (w : ℝ) (z : ℂ) : ℂ :=
  (w : ℂ) * (((z.re : ℝ) : ℂ) + 0)

/-- The source's `weight * (0 + 1j * imag_part)` (the `"FT Imaginary"` branch). -/
def imagWeighted (w : ℝ) (z : ℂ) : ℂ :=
  (w : ℂ) * (0 + Complex.I * ((z.im : ℝ) : ℂ))

/-! ### Min-max normalisation (`cv2.normalize(..., 0, 255, NORM_MINMAX)`) -/

def grid (H W : ℕ) : Finset (ℕ × ℕ) := Finset.range H ×ˢ Finset.range W

def matVals (H W : ℕ) (f : ℕ → ℕ → ℝ) : Finset ℝ :=
  (grid H W).image fun p => f p.1 p.2

def matMax (H W : ℕ) (f : ℕ → ℕ → ℝ) : ℝ :=
  ((matVals H W f).max).unbot' 0

def matMin (H W : ℕ) (f : ℕ → ℕ → ℝ) : ℝ :=
  ((matVals H W f).min).untop' 0

/-- Model of `cv2.normalize(src, None, 0, 255, cv2.NORM_MINMAX)` on a float array:
every entry is mapped by `v ↦ (v - min) * 255 / (max - min)`; when the value
range is zero the scale is set to 0, yielding an all-zero result (OpenCV's
guard against division by zero, idealised over exact reals). -/
def cvNormalize (H W : ℕ) (f : ℕ → ℕ → ℝ) : ℕ → ℕ → ℝ :=
  fun y x =>
    if matMax H W f - matMin H W f ≤ 0 then 0
    else (f y x - matMin H W f) * (255 / (matMax H W f - matMin H W f))

/-- The source's `.astype(np.uint8)` on the (nonnegative) normalised values: truncation. -/
def toUint8 (v : ℝ) : ℕ := (Int.floor v).toNat

/-! ### `Mixer.mix_images` -/

/-- One iteration of the `for i in range(4)` loop: skip absent images and
zero weights, transform, shift, mask, extract the selected component, and
accumulate.  List accesses out of range raise `IndexError`. -/
def slotStep (rmode : String) (gm : ℕ → ℕ → ℝ) (H W : ℕ)
    (images : List (Option PyImage)) (weights : List ℝ) (sels : List String)
    (acc : NpArr) (i : ℕ) : Except NpError NpArr :=
  match images.get? i with
  | none => .error .indexError
  | some none => .ok acc
  | some (some img) =>
      match weights.get? i with
      | none => .error .indexError
      | some w =>
          if w = 0 then .ok acc
          else
            match apply_region_mask rmode (fftshiftA (fft2 img)) H W gm with
            | .error e => .error e
            | .ok masked =>
                match sels.get? i with
                | none => .error .indexError
                | some sel =>
                    if sel = ftMagnitudeText then
                      addInPlace acc ⟨masked.h, masked.w,
                        fun y x => magWeighted w (masked.f y x)⟩
                    else if sel = ftPhaseText then
                      addInPlace acc ⟨masked.h, masked.w,
                        fun y x => phaseWeighted w (masked.f y x)⟩
                    else if sel = ftRealText then
                      addInPlace acc ⟨masked.h, masked.w,
                        fun y x => realWeighted w (masked.f y x)⟩
                    else if sel = ftImaginaryText then
                      addInPlace acc ⟨masked.h, masked.w,
                        fun y x => imagWeighted w (masked.f y x)⟩
                    else .ok acc

/-- Run the loop body over the given indices, threading the accumulator and
propagating the first raised error. -/
def runSlots (step : NpArr → ℕ → Except NpError NpArr) :
    NpArr → List ℕ → Except NpError NpArr
  | acc, [] => .ok acc
  | acc, i :: rest =>
      match step acc i with
      | .error e => .error e
      | .ok acc' => runSlots step acc' rest

/-- The composite spectrum `combined_ft` after the loop: starts as complex
zeros of the target shape; `sigma = selector_region[2]`. -/
def mixCombined (rmode : String) (images : List (Option PyImage))
    (weights : List ℝ) (sels : List String) (selector_region : List ℝ)
    (H W : ℕ) : Except NpError NpArr :=
  match selector_region.get? 2 with
  | none => .error .indexError
  | some sigma =>
      runSlots
        (slotStep rmode (create_gaussian_mask H W sigma) H W images weights sels)
        ⟨H, W, fun _ _ => 0⟩ [0, 1, 2, 3]

/-- The source's `mixed_image = np.abs(np.fft.ifft2(np.fft.ifftshift(combined_ft)))`. -/
def reconstruct (H W : ℕ) (c : NpArr) : ℕ → ℕ → ℝ :=
  fun y x => Complex.abs (ifft2val H W (ifftshiftF H W c.f) y x)

/-- Normalise to `[0, 255]` and cast to `uint8`. -/
def finalizeImg (H W : ℕ) (pre : ℕ → ℕ → ℝ) : ImgN :=
  ⟨H, W, fun y x => toUint8 (cvNormalize H W pre y x)⟩

/-- Model of `Mixer.mix_images`.  Missing target dimensions short-circuit to a
`100×100` zero placeholder before anything else is read. -/
def mix_images (rmode : String) (images : List (Option PyImage))
    (weights : List ℝ) (sels : List String) (selector_region : List ℝ)
    (min_height min_width : Option ℕ) : Except NpError ImgN :=
  match min_height, min_width with
  | some H, some W =>
      match mixCombined rmode images weights sels selector_region H W with
      | .error e => .error e
      | .ok c => .ok (finalizeImg H W (reconstruct H W c))
  | _, _ => .ok (zeroImg 100 100)

/-! ### Derived mathematical descriptions used in amended claims -/

/-- The absolute even-symmetrisation of an `H × W` real image:
`|(d(y,x) + d((H-y) mod H, (W-x) mod W)) / 2|`.  Keeping only the real part
of the spectrum of a real image reconstructs exactly this. -/
def absEvenPart (H W : ℕ) (d : ℕ → ℕ → ℝ) : ℕ → ℕ → ℝ :=
  fun y x => |(d y x + d ((H - y) % H) ((W - x) % W)) / 2|

/-- Specification of a normalised output image for a pre-normalisation real
array `pre`: shape, the normalisation formula, the `[0,255]` range, the
min↦0 / max↦255 mapping in the non-degenerate case, and the all-zero output
in the degenerate (`min = max`) case. -/
def NormOutSpec (H W : ℕ) (pre : ℕ → ℕ → ℝ) (out : ImgN) : Prop :=
  out.h = H ∧ out.w = W ∧
  out.f = (fun y x => toUint8 (cvNormalize H W pre y x)) ∧
  (∀ y x, y < H → x < W → out.f y x ≤ 255) ∧
  (matMin H W pre < matMax H W pre →
    ∀ y x, y < H → x < W →
      (pre y x = matMin H W pre → out.f y x = 0) ∧
      (pre y x = matMax H W pre → out.f y x = 255)) ∧
  (matMax H W pre ≤ matMin H W pre → ∀ y x, out.f y x = 0)

/-- Specification of the single-active-slot / `FT Real` / no-mask mixing
result: it succeeds, has the target shape, and every pixel is the min-max
normalised, `uint8`-truncated absolute even-symmetrisation of the input. -/
def SingleRealSpec (H W : ℕ) (d : ℕ → ℕ → ℝ) (res : Except NpError ImgN) : Prop :=
  ∃ out, res = .ok out ∧ out.h = H ∧ out.w = W ∧
    ∀ y x, y < H → x < W →
      out.f y x = toUint8 (cvNormalize H W (absEvenPart H W d) y x)

/-- Specification of `__apply_region_mask` over matching shapes: `"None"`
returns the spectrum unchanged, `"Inner"` multiplies elementwise by the
mask, `"Outer"` by one minus the mask (so the Outer result is the spectrum
minus the Inner result). -/
def RegionMaskSpec (H W : ℕ) (g : ℕ → ℕ → ℝ) (ft : NpArr) : Prop :=
  apply_region_mask noneText ft H W g = .ok ft ∧
  ∃ aI aO,
    apply_region_mask innerText ft H W g = .ok aI ∧
    apply_region_mask outerText ft H W g = .ok aO ∧
    aI.h = H ∧ aI.w = W ∧ aO.h = H ∧ aO.w = W ∧
    ∀ y x, y < H → x < W →
      aI.f y x = ft.f y x * ((g y x : ℝ) : ℂ) ∧
      aO.f y x = ft.f y x * (1 - ((g y x : ℝ) : ℂ)) ∧
      aO.f y x = ft.f y x - aI.f y x

/-! ### Concrete inputs used by counterexamples and witnesses -/

/-- Four absent image slots. -/
def imgsNone4 : List (Option PyImage) := [none, none, none, none]

/-- A `selector_region` list `[center_x, center_y, sigma, 0]` with σ = 1. -/
def regDefault : List ℝ := [0, 0, 1, 0]

/-- Weights `[1.0, 0, 0, 0]`. -/
def wts1000 : List ℝ := [1, 0, 0, 0]

/-- All four component selectors set to `"FT Real"`. -/
def selsReal4 : List String := [ftRealText, ftRealText, ftRealText, ftRealText]

/-- A `1 × 2` image with pixel row `[10, 20]`. -/
def imgC7 : PyImage := ⟨1, 2, fun _ x => if x = 0 then 10 else 20⟩

/-- A `1 × 2` all-zero image (broadcastable against a `2 × 2` target). -/
def imgRow12 : PyImage := ⟨1, 2, fun _ _ => 0⟩

/-- A `1 × 1` spectrum with the single entry 2. -/
def arr11 : NpArr := ⟨1, 1, fun _ _ => 2⟩

/-- The all-zero complex array of the given shape. -/
def zeroArr (H W : ℕ) : NpArr := ⟨H, W, fun _ _ => 0⟩

/-- Observation of a mixing result: its shape and its pixel at `(0, 1)`. -/
def outProbe (res : Except NpError ImgN) : Option (ℕ × ℕ × ℕ) :=
  res.toOption.map fun o => (o.h, o.w, o.f 0 1)

/-! ## Theorems -/

theorem bidx_eq_of_lt {n i : ℕ} (h : i < n) : bidx n i = i := by
  rw [bidx]
  split
  · omega
  · rfl

/-- C1: for every height, width and real sigma, the Gaussian mask equals
`exp(-((x-cx)^2+(y-cy)^2)/(2(σ^2+1e-6)))` with `cx = W div 2`,
`cy = H div 2` at every grid point, and every entry is finite — rendered
over exact reals as `0 < M[y,x] ≤ 1`.  The mask is a function of `H`, `W`
and σ alone, so it cannot depend on any image content. -/
theorem gaussian_mask_matches_formula (H W : ℕ) (sigma : ℝ) (y x : ℕ) :
    create_gaussian_mask H W sigma y x =
      Real.exp (-(((x : ℝ) - (W / 2 : ℕ)) ^ 2 + ((y : ℝ) - (H / 2 : ℕ)) ^ 2) /
        (2 * (sigma ^ 2 + 1e-6))) ∧
    0 < create_gaussian_mask H W sigma y x ∧
    create_gaussian_mask H W sigma y x ≤ 1 := by
  refine ⟨rfl, Real.exp_pos _, ?_⟩
  rw [create_gaussian_mask, Real.exp_le_one_iff]
  apply div_nonpos_of_nonpos_of_nonneg
  · have : (0 : ℝ) ≤ distance_sq H W y x := by
      rw [distance_sq]
      positivity
    linarith
  · positivity

/-- C8: `set_region_mode` stores `Inner` when the text contains `"Inner"`,
else `Outer` when it contains `"Outer"`, else `None`; it changes nothing
else on the mixer state.  In particular `"High-Frequency (Outer)"` yields
`Outer`, `"Low (Inner) Region"` yields `Inner`, `"Off"` yields `None`. -/
theorem set_region_mode_normalizes (L : Type) (s : MixerState L) (mode : String) :
    ((set_region_mode s mode).region_mode =
      if strContainsSub innerText mode then innerText
      else if strContainsSub outerText mode then outerText
      else noneText) ∧
    (set_region_mode s mode).output_label_1 = s.output_label_1 ∧
    (set_region_mode s mode).output_label_2 = s.output_label_2 ∧
    (set_region_mode s textHighFreqOuter).region_mode = outerText ∧
    (set_region_mode s textLowInnerRegion).region_mode = innerText ∧
    (set_region_mode s textOff).region_mode = noneText := by
  refine ⟨rfl, rfl, rfl, ?_, ?_, ?_⟩
  · show (if strContainsSub innerText textHighFreqOuter then innerText
      else if strContainsSub outerText textHighFreqOuter then outerText
      else noneText) = outerText
    decide
  · show (if strContainsSub innerText textLowInnerRegion then innerText
      else if strContainsSub outerText textLowInnerRegion then outerText
      else noneText) = innerText
    decide
  · show (if strContainsSub innerText textOff then innerText
      else if strContainsSub outerText textOff then outerText
      else noneText) = noneText
    decide

/-- C6: the `"FT Magnitude"` contribution
`weight * |masked| * exp(i·arg masked)` equals `weight * masked` for every
weight and complex spectrum value, hence pointwise on every masked
spectrum; the Magnitude selector is therefore identical to direct scaling
of the masked spectrum, so both produce the same accumulated composite. -/
theorem magnitude_selector_equiv (w : ℝ) (z : ℂ) :
    magWeighted w z = (w : ℂ) * z ∧
    ∀ a : NpArr, (fun y x => magWeighted w (a.f y x)) = fun y x => (w : ℂ) * a.f y x := by
  have h : ∀ z' : ℂ, magWeighted w z' = (w : ℂ) * z' := by
    intro z'
    rw [magWeighted, mul_assoc, mul_comm Complex.I, Complex.abs_mul_exp_arg_mul_I]
  exact ⟨h z, fun a => funext fun y => funext fun x => h (a.f y x)⟩

/-- C5: for every mask and every spectrum of matching dimensions,
`"None"` mode returns the spectrum unchanged, `"Inner"` multiplies it
elementwise by the Gaussian mask, `"Outer"` by `1 -` the mask, so the
Outer-masked spectrum equals the spectrum minus the Inner-masked one. -/
theorem region_mask_modes (H W : ℕ) (g : ℕ → ℕ → ℝ) (ft : NpArr)
    (hh : ft.h = H) (hw : ft.w = W) : RegionMaskSpec H W g ft := by
  subst hh
  subst hw
  have hb : bcastDim ft.h ft.h = some ft.h := by rw [bcastDim, if_pos rfl]
  have hbw : bcastDim ft.w ft.w = some ft.w := by rw [bcastDim, if_pos rfl]
  refine ⟨by rw [apply_region_mask, if_pos rfl], ?_⟩
  refine ⟨⟨ft.h, ft.w, fun y x =>
      ft.f (bidx ft.h y) (bidx ft.w x) * ((g (bidx ft.h y) (bidx ft.w x) : ℝ) : ℂ)⟩,
    ⟨ft.h, ft.w, fun y x =>
      ft.f (bidx ft.h y) (bidx ft.w x) *
        ((1 - g (bidx ft.h y) (bidx ft.w x) : ℝ) : ℂ)⟩, ?_, ?_, rfl, rfl, rfl, rfl, ?_⟩
  · rw [apply_region_mask, if_neg (by decide), if_pos rfl, mulMask, hb, hbw]
  · rw [apply_region_mask, if_neg (by decide), if_neg (by decide), if_pos rfl,
      mulMask, hb, hbw]
  · intro y x hy hx
    dsimp only
    rw [bidx_eq_of_lt hy, bidx_eq_of_lt hx]
    refine ⟨rfl, by push_cast; ring, by push_cast; ring⟩

/-- Witness for C5 at `H = W = 1`, the constant-2 spectrum and the zero
mask. -/
theorem region_mask_modes_witness :
    arr11.h = 1 ∧ arr11.w = 1 ∧ RegionMaskSpec 1 1 (fun _ _ => 0) arr11 :=
  ⟨rfl, rfl, region_mask_modes 1 1 (fun _ _ => 0) arr11 rfl rfl⟩

/-! ### The all-skipped / zero pipeline -/

theorem slotStep_skip (rmode : String) (gm : ℕ → ℕ → ℝ) (H W : ℕ)
    (images : List (Option PyImage)) (weights : List ℝ) (sels : List String)
    (acc : NpArr) (i : ℕ)
    (h : images.get? i = some none ∨
      ∃ im, images.get? i = some (some im) ∧ weights.get? i = some 0) :
    slotStep rmode gm H W images weights sels acc i = .ok acc := by
  rcases h with h | ⟨im, h1, h2⟩
  · rw [slotStep, h]
  · rw [slotStep, h1, h2]
    simp

theorem mixCombined_skipAll (rmode : String) (images : List (Option PyImage))
    (weights : List ℝ) (sels : List String) (region : List ℝ) (H W : ℕ)
    (sigma : ℝ) (hs : region.get? 2 = some sigma)
    (hskip : ∀ i, i < 4 → images.get? i = some none ∨
      ∃ im, images.get? i = some (some im) ∧ weights.get? i = some 0) :
    mixCombined rmode images weights sels region H W = .ok (zeroArr H W) := by
  have h0 := slotStep_skip rmode (create_gaussian_mask H W sigma) H W images
    weights sels (zeroArr H W) 0 (hskip 0 (by norm_num))
  have h1 := slotStep_skip rmode (create_gaussian_mask H W sigma) H W images
    weights sels (zeroArr H W) 1 (hskip 1 (by norm_num))
  have h2 := slotStep_skip rmode (create_gaussian_mask H W sigma) H W images
    weights sels (zeroArr H W) 2 (hskip 2 (by norm_num))
  have h3 := slotStep_skip rmode (create_gaussian_mask H W sigma) H W images
    weights sels (zeroArr H W) 3 (hskip 3 (by norm_num))
  rw [mixCombined, hs]
  show runSlots (slotStep rmode (create_gaussian_mask H W sigma) H W images weights sels)
    (zeroArr H W) [0, 1, 2, 3] = .ok (zeroArr H W)
  simp [runSlots, h0, h1, h2, h3]

theorem reconstruct_zeroA (H W : ℕ) :
    reconstruct H W (zeroArr H W) = fun _ _ => 0 := by
  funext y x
  have hz : ifft2val H W (ifftshiftF H W (zeroArr H W).f) y x = 0 := by
    rw [ifft2val]
    simp [ifftshiftF, zeroArr]
  rw [reconstruct]
  rw [hz]
  simp

theorem matMax_zeroF (H W : ℕ) : matMax H W (fun _ _ => (0 : ℝ)) = 0 := by
  rw [matMax]
  rcases (grid H W).eq_empty_or_nonempty with h | h
  · rw [matVals, h]
    simp
  · rw [matVals, Finset.image_const h]
    simp

theorem matMin_zeroF (H W : ℕ) : matMin H W (fun _ _ => (0 : ℝ)) = 0 := by
  rw [matMin]
  rcases (grid H W).eq_empty_or_nonempty with h | h
  · rw [matVals, h]
    simp
  · rw [matVals, Finset.image_const h]
    simp

theorem cvNormalize_zeroF (H W : ℕ) :
    cvNormalize H W (fun _ _ => 0) = fun _ _ => 0 := by
  funext y x
  rw [cvNormalize]
  rw [matMax_zeroF, matMin_zeroF]
  norm_num

theorem finalize_zeroF (H W : ℕ) :
    finalizeImg H W (fun _ _ => 0) = zeroImg H W := by
  rw [finalizeImg, zeroImg]
  congr 1
  funext y x
  rw [cvNormalize_zeroF]
  simp [toUint8]

theorem mix_images_some (rmode : String) (images : List (Option PyImage))
    (weights : List ℝ) (sels : List String) (region : List ℝ) (H W : ℕ) :
    mix_images rmode images weights sels region (some H) (some W) =
      match mixCombined rmode images weights sels region H W with
      | .error e => .error e
      | .ok c => .ok (finalizeImg H W (reconstruct H W c)) := rfl

theorem mix_skip_all (rmode : String) (images : List (Option PyImage))
    (weights : List ℝ) (sels : List String) (region : List ℝ) (H W : ℕ)
    (sigma : ℝ) (hs : region.get? 2 = some sigma)
    (hskip : ∀ i, i < 4 → images.get? i = some none ∨
      ∃ im, images.get? i = some (some im) ∧ weights.get? i = some 0) :
    mix_images rmode images weights sels region (some H) (some W) =
      .ok (zeroImg H W) := by
  rw [mix_images_some, mixCombined_skipAll rmode images weights sels region H W sigma hs hskip]
  show Except.ok (finalizeImg H W (reconstruct H W (zeroArr H W))) =
    Except.ok (zeroImg H W)
  rw [reconstruct_zeroA, finalize_zeroF]

/-- C3: whenever the target height or width is absent, `mix_images` returns
the fixed `100×100` all-zero 8-bit image, for every region mode and all
other arguments, raising no error. -/
theorem mix_missing_dims_placeholder (rmode : String)
    (images : List (Option PyImage)) (weights : List ℝ) (sels : List String)
    (region : List ℝ) (mh mw : Option ℕ) (h : mh = none ∨ mw = none) :
    mix_images rmode images weights sels region mh mw = .ok (zeroImg 100 100) := by
  rcases h with h | h <;> subst h
  · cases mw <;> rfl
  · cases mh <;> rfl

/-- Witness for C3 with a missing height. -/
theorem mix_missing_dims_placeholder_witness :
    ((none : Option ℕ) = none ∨ (some 5 : Option ℕ) = none) ∧
    mix_images noneText imgsNone4 [] [] [] none (some 5) = .ok (zeroImg 100 100) :=
  ⟨Or.inl rfl,
   mix_missing_dims_placeholder noneText imgsNone4 [] [] [] none (some 5) (Or.inl rfl)⟩

/-- C10: with a missing target dimension the placeholder is produced
without reading the images, weights, selections or region parameter: the
result is the `100×100` zero image for arbitrary — possibly malformed —
other arguments (e.g. `selector_region` shorter than three entries), and
is identical across any two choices of those arguments. -/
theorem mix_missing_dims_independent (rmode rmode' : String)
    (images images' : List (Option PyImage)) (weights weights' : List ℝ)
    (sels sels' : List String) (region region' : List ℝ) (mh mw : Option ℕ)
    (h : mh = none ∨ mw = none) :
    mix_images rmode images weights sels region mh mw = .ok (zeroImg 100 100) ∧
    mix_images rmode images weights sels region mh mw =
      mix_images rmode' images' weights' sels' region' mh mw := by
  rcases h with h | h <;> subst h
  · cases mw <;> exact ⟨rfl, rfl⟩
  · cases mh <;> exact ⟨rfl, rfl⟩

/-- Witness for C10: empty malformed lists versus populated ones. -/
theorem mix_missing_dims_independent_witness :
    ((none : Option ℕ) = none ∨ (some 7 : Option ℕ) = none) ∧
    mix_images textOff [] [] [] [] none (some 7) = .ok (zeroImg 100 100) ∧
    mix_images textOff [] [] [] [] none (some 7) =
      mix_images noneText imgsNone4 wts1000 selsReal4 regDefault none (some 7) :=
  ⟨Or.inl rfl,
   mix_missing_dims_independent textOff noneText [] imgsNone4 [] wts1000 []
     selsReal4 [] regDefault none (some 7) (Or.inl rfl)⟩

/-- C4: a call with target dimensions in which every slot is skipped (image
absent or weight exactly 0) returns the all-zero image of the requested
dimensions; the degenerate `min = max` normalisation case is handled and
no error is raised. -/
theorem mix_all_skipped_zero (rmode : String) (images : List (Option PyImage))
    (weights : List ℝ) (sels : List String) (region : List ℝ) (H W : ℕ)
    (sigma : ℝ) (hH : 1 ≤ H) (hW : 1 ≤ W) (hs : region.get? 2 = some sigma)
    (hskip : ∀ i, i < 4 → images.get? i = some none ∨
      ∃ im, images.get? i = some (some im) ∧ weights.get? i = some 0) :
    mix_images rmode images weights sels region (some H) (some W) =
      .ok (zeroImg H W) :=
  mix_skip_all rmode images weights sels region H W sigma hs hskip

/-! ### Bounds and extremal behaviour of the min-max normalisation -/

theorem mem_matVals (H W : ℕ) (f : ℕ → ℕ → ℝ) {y x : ℕ} (hy : y < H) (hx : x < W) :
    f y x ∈ matVals H W f := by
  rw [matVals, grid]
  exact Finset.mem_image.mpr ⟨(y, x),
    Finset.mem_product.mpr ⟨Finset.mem_range.mpr hy, Finset.mem_range.mpr hx⟩, rfl⟩

theorem matMin_le (H W : ℕ) (f : ℕ → ℕ → ℝ) {y x : ℕ} (hy : y < H) (hx : x < W) :
    matMin H W f ≤ f y x := by
  have hm := mem_matVals H W f hy hx
  have hne : (matVals H W f).Nonempty := ⟨_, hm⟩
  have hrw : matMin H W f = (matVals H W f).min' hne := by
    rw [matMin, ← Finset.coe_min' hne, WithTop.untop'_coe]
  rw [hrw]
  exact Finset.min'_le _ _ hm

theorem le_matMax (H W : ℕ) (f : ℕ → ℕ → ℝ) {y x : ℕ} (hy : y < H) (hx : x < W) :
    f y x ≤ matMax H W f := by
  have hm := mem_matVals H W f hy hx
  have hne : (matVals H W f).Nonempty := ⟨_, hm⟩
  have hrw : matMax H W f = (matVals H W f).max' hne := by
    rw [matMax, ← Finset.coe_max' hne, WithBot.unbot'_coe]
  rw [hrw]
  exact Finset.le_max' _ _ hm

theorem cvNormalize_nonneg_le (H W : ℕ) (f : ℕ → ℕ → ℝ) {y x : ℕ}
    (hy : y < H) (hx : x < W) :
    0 ≤ cvNormalize H W f y x ∧ cvNormalize H W f y x ≤ 255 := by
  rw [cvNormalize]
  by_cases hc : matMax H W f - matMin H W f ≤ 0
  · rw [if_pos hc]
    norm_num
  · rw [if_neg hc]
    push_neg at hc
    have h1 : matMin H W f ≤ f y x := matMin_le H W f hy hx
    have h2 : f y x ≤ matMax H W f := le_matMax H W f hy hx
    constructor
    · apply mul_nonneg (by linarith)
      positivity
    · have hmul : (f y x - matMin H W f) * (255 / (matMax H W f - matMin H W f)) ≤
          (matMax H W f - matMin H W f) * (255 / (matMax H W f - matMin H W f)) := by
        apply mul_le_mul_of_nonneg_right (by linarith)
        positivity
      have he : (matMax H W f - matMin H W f) * (255 / (matMax H W f - matMin H W f)) =
          255 := by
        field_simp
      linarith

theorem toUint8_le255 (v : ℝ) (h : v ≤ 255) : toUint8 v ≤ 255 := by
  rw [toUint8]
  rw [Int.toNat_le]
  have h1 : Int.floor v ≤ Int.floor (255 : ℝ) := Int.floor_le_floor h
  have h2 : Int.floor (255 : ℝ) = 255 := by norm_num
  omega

theorem toUint8_zero : toUint8 0 = 0 := by
  norm_num [toUint8]

theorem toUint8_255 : toUint8 255 = 255 := by
  norm_num [toUint8]
  rfl

theorem normOutSpec_finalize (H W : ℕ) (pre : ℕ → ℕ → ℝ) :
    NormOutSpec H W pre (finalizeImg H W pre) := by
  refine ⟨rfl, rfl, rfl, ?_, ?_, ?_⟩
  · intro y x hy hx
    show toUint8 (cvNormalize H W pre y x) ≤ 255
    exact toUint8_le255 _ (cvNormalize_nonneg_le H W pre hy hx).2
  · intro hlt y x hy hx
    constructor
    · intro hmin
      show toUint8 (cvNormalize H W pre y x) = 0
      rw [cvNormalize, if_neg (by linarith), hmin]
      rw [sub_self, zero_mul]
      exact toUint8_zero
    · intro hmax
      show toUint8 (cvNormalize H W pre y x) = 255
      rw [cvNormalize, if_neg (by linarith), hmax]
      have he : (matMax H W pre - matMin H W pre) *
          (255 / (matMax H W pre - matMin H W pre)) = 255 := by
        have : matMax H W pre - matMin H W pre ≠ 0 := by linarith
        field_simp
      rw [he]
      exact toUint8_255
  · intro hle y x
    show toUint8 (cvNormalize H W pre y x) = 0
    rw [cvNormalize, if_pos (by linarith)]
    exact toUint8_zero

/-- C2, counterexample to the claim as stated: an all-skipped `2×2` call
(dimensions supplied) returns the all-zero image; `(0,0)` attains the
maximum of the pre-normalisation reconstruction, yet its output pixel is
0, not 255 — the maximum is not mapped to 255 in the degenerate
(`min = max`) case. -/
theorem mix_minmax_rescale_cx :
    mix_images noneText imgsNone4 [] [] regDefault (some 2) (some 2) =
      .ok (zeroImg 2 2) ∧
    reconstruct 2 2 (zeroArr 2 2) 0 0 =
      matMax 2 2 (reconstruct 2 2 (zeroArr 2 2)) ∧
    (zeroImg 2 2).f 0 0 = 0 ∧ (0 : ℕ) ≠ 255 := by
  have hskip : ∀ i, i < 4 → imgsNone4.get? i = some none ∨
      ∃ im, imgsNone4.get? i = some (some im) ∧ ([] : List ℝ).get? i = some 0 :=
    fun i hi => by interval_cases i <;> exact Or.inl rfl
  refine ⟨mix_skip_all noneText imgsNone4 [] [] regDefault 2 2 1 rfl hskip, ?_, rfl,
    by norm_num⟩
  rw [reconstruct_zeroA, matMax_zeroF]

/-- C2, amended: whenever `mix_images` with supplied target dimensions
returns an image, that image is the magnitude of the inverse-transformed
composite spectrum, min-max normalised and truncated to 8 bits: every
pixel is in `[0, 255]`; when the pre-normalisation minimum is strictly
below the maximum, pixels attaining the minimum map to 0 and pixels
attaining the maximum map to 255; when minimum = maximum the output is
identically zero. -/
theorem mix_output_normalized (rmode : String) (images : List (Option PyImage))
    (weights : List ℝ) (sels : List String) (region : List ℝ) (H W : ℕ)
    (hH : 1 ≤ H) (hW : 1 ≤ W) (out : ImgN)
    (hok : mix_images rmode images weights sels region (some H) (some W) = .ok out) :
    ∃ c, mixCombined rmode images weights sels region H W = .ok c ∧
      NormOutSpec H W (reconstruct H W c) out := by
  rw [mix_images_some] at hok
  cases hc : mixCombined rmode images weights sels region H W with
  | error e =>
      rw [hc] at hok
      exact Except.noConfusion hok
  | ok c =>
      rw [hc] at hok
      obtain rfl : out = finalizeImg H W (reconstruct H W c) := (Except.ok.inj hok).symm
      exact ⟨c, rfl, normOutSpec_finalize H W (reconstruct H W c)⟩

/-- Witness for the amended C2: the all-skipped `1×1` call. -/
theorem mix_output_normalized_witness :
    (1 : ℕ) ≤ 1 ∧
    mix_images noneText imgsNone4 [] [] regDefault (some 1) (some 1) =
      .ok (zeroImg 1 1) ∧
    mixCombined noneText imgsNone4 [] [] regDefault 1 1 = .ok (zeroArr 1 1) ∧
    NormOutSpec 1 1 (reconstruct 1 1 (zeroArr 1 1)) (zeroImg 1 1) := by
  have hskip : ∀ i, i < 4 → imgsNone4.get? i = some none ∨
      ∃ im, imgsNone4.get? i = some (some im) ∧ ([] : List ℝ).get? i = some 0 :=
    fun i hi => by interval_cases i <;> exact Or.inl rfl
  have hok := mix_skip_all noneText imgsNone4 [] [] regDefault 1 1 1 rfl hskip
  obtain ⟨c, hc, hspec⟩ := mix_output_normalized noneText imgsNone4 [] [] regDefault 1 1
    (le_refl 1) (le_refl 1) (zeroImg 1 1) hok
  have hc0 := mixCombined_skipAll noneText imgsNone4 [] [] regDefault 1 1 1 rfl hskip
  have hceq : c = zeroArr 1 1 := Except.ok.inj (hc.symm.trans hc0)
  subst hceq
  exact ⟨le_refl 1, hok, hc, hspec⟩

/-! ### Discrete Fourier analysis: roots of unity and inversion -/

theorem cisN_add (N : ℕ) (a b : ℤ) : cisN N (a + b) = cisN N a * cisN N b := by
  rw [cisN, cisN, cisN, ← Complex.exp_add]
  congr 1
  push_cast
  ring

theorem sum_cisN (N : ℕ) (m : ℤ) :
    ∑ j in Finset.range N, cisN N ((j : ℤ) * m) =
      if (N : ℤ) ∣ m then (N : ℂ) else 0 := by
  rcases Nat.eq_zero_or_pos N with hN | hN
  · subst hN
    rcases eq_or_ne m 0 with rfl | hm
    · simp
    · simp [hm]
  · have hNC : (N : ℂ) ≠ 0 := Nat.cast_ne_zero.mpr hN.ne'
    have hstep : ∀ j ∈ Finset.range N, cisN N ((j : ℤ) * m) = cisN N m ^ j := by
      intro j _
      rw [cisN, cisN, ← Complex.exp_nat_mul]
      congr 1
      push_cast
      ring
    rw [Finset.sum_congr rfl hstep]
    by_cases hdvd : (N : ℤ) ∣ m
    · obtain ⟨q, rfl⟩ := hdvd
      have hone : cisN N ((N : ℤ) * q) = 1 := by
        rw [cisN]
        have harg : 2 * (Real.pi : ℂ) * Complex.I * (((N : ℤ) * q : ℤ) : ℂ) / (N : ℂ) =
            ((q : ℤ) : ℂ) * (2 * (Real.pi : ℂ) * Complex.I) := by
          push_cast
          field_simp
          ring
        rw [harg]
        exact Complex.exp_int_mul_two_pi_mul_I q
      rw [hone]
      rw [if_pos ⟨q, rfl⟩]
      simp
    · have h2piI : (2 * (Real.pi : ℂ) * Complex.I) ≠ 0 := by
        simp [Real.pi_ne_zero, Complex.I_ne_zero, Complex.ofReal_ne_zero]
      have hz : cisN N m ≠ 1 := by
        intro h1
        apply hdvd
        rw [cisN] at h1
        obtain ⟨n, hn⟩ := Complex.exp_eq_one_iff.mp h1
        have hn' : (2 * (Real.pi : ℂ) * Complex.I) * ((m : ℂ) / (N : ℂ)) =
            (2 * (Real.pi : ℂ) * Complex.I) * (n : ℂ) := by
          linear_combination hn
        have hmn : (m : ℂ) / (N : ℂ) = (n : ℂ) := mul_left_cancel₀ h2piI hn'
        have hm2 : (m : ℂ) = (n : ℂ) * (N : ℂ) := by
          rw [div_eq_iff hNC] at hmn
          exact hmn
        have hm3 : m = n * N := by exact_mod_cast hm2
        exact ⟨n, by rw [hm3]; ring⟩
      rw [geom_sum_eq hz]
      have hpow : cisN N m ^ N = 1 := by
        rw [cisN, ← Complex.exp_nat_mul]
        have harg : (N : ℂ) * (2 * (Real.pi : ℂ) * Complex.I * (m : ℂ) / (N : ℂ)) =
            ((m : ℤ) : ℂ) * (2 * (Real.pi : ℂ) * Complex.I) := by
          field_simp
          ring
        rw [harg]
        exact Complex.exp_int_mul_two_pi_mul_I m
      rw [hpow, if_neg hdvd]
      simp

theorem small_dvd_sub {N j jp : ℕ} (hj : j < N) (hjp : jp < N) :
    ((N : ℤ) ∣ ((j : ℤ) - (jp : ℤ))) ↔ jp = j := by
  constructor
  · rintro ⟨c, hc⟩
    have hNpos : (0 : ℤ) < (N : ℤ) := by
      exact_mod_cast lt_of_le_of_lt (Nat.zero_le j) hj
    rcases lt_trichotomy c 0 with h | h | h
    · have hc1 : c ≤ -1 := by omega
      have hmul : (N : ℤ) * c ≤ -(N : ℤ) := by nlinarith
      omega
    · rw [h, mul_zero] at hc
      omega
    · have hc1 : (1 : ℤ) ≤ c := by omega
      have hmul : (N : ℤ) ≤ (N : ℤ) * c := by nlinarith
      omega
  · rintro rfl
    simp

theorem small_dvd_add {N j jp : ℕ} (hj : j < N) (hjp : jp < N) :
    ((N : ℤ) ∣ ((j : ℤ) + (jp : ℤ))) ↔ jp = (N - j) % N := by
  have hN : 0 < N := lt_of_le_of_lt (Nat.zero_le j) hj
  have hcast : ((N : ℤ) ∣ ((j : ℤ) + (jp : ℤ))) ↔ N ∣ (j + jp) := by
    constructor
    · intro h
      exact_mod_cast h
    · intro h
      exact_mod_cast h
  rw [hcast]
  constructor
  · rintro ⟨c, hc⟩
    have hc2 : c < 2 := by
      by_contra hge
      push_neg at hge
      have h2 : N * 2 ≤ N * c := Nat.mul_le_mul (le_refl N) hge
      omega
    interval_cases c
    · rw [mul_zero] at hc
      have hj0 : j = 0 := by omega
      have hjp0 : jp = 0 := by omega
      rw [hjp0, hj0, Nat.sub_zero, Nat.mod_self]
    · rw [mul_one] at hc
      have hj1 : 1 ≤ j := by omega
      rw [Nat.mod_eq_of_lt (by omega)]
      omega
  · intro h
    by_cases hj0 : j = 0
    · subst hj0
      rw [Nat.sub_zero, Nat.mod_self] at h
      subst h
      exact ⟨0, by rw [mul_zero]; omega⟩
    · rw [Nat.mod_eq_of_lt (by omega)] at h
      subst h
      exact ⟨1, by rw [mul_one]; omega⟩

theorem idft1_dft1 (N : ℕ) (g : ℕ → ℂ) {j : ℕ} (hj : j < N) :
    idft1 N (dft1 N g) j = g j := by
  have hN : 0 < N := lt_of_le_of_lt (Nat.zero_le j) hj
  have hNC : (N : ℂ) ≠ 0 := Nat.cast_ne_zero.mpr hN.ne'
  rw [idft1]
  have hstep : ∀ k ∈ Finset.range N, dft1 N g k * cisN N ((k : ℤ) * (j : ℤ)) =
      ∑ jp in Finset.range N, g jp * cisN N ((k : ℤ) * ((j : ℤ) - (jp : ℤ))) := by
    intro k _
    rw [dft1, Finset.sum_mul]
    refine Finset.sum_congr rfl fun jp _ => ?_
    rw [mul_assoc, ← cisN_add]
    congr 2
    ring
  rw [Finset.sum_congr rfl hstep, Finset.sum_comm]
  have hinner : ∀ jp ∈ Finset.range N,
      (∑ k in Finset.range N, g jp * cisN N ((k : ℤ) * ((j : ℤ) - (jp : ℤ)))) =
        if jp = j then g jp * (N : ℂ) else 0 := by
    intro jp hjp
    rw [← Finset.mul_sum, sum_cisN]
    simp only [small_dvd_sub hj (Finset.mem_range.mp hjp)]
    by_cases h : jp = j
    · rw [if_pos h, if_pos h]
    · rw [if_neg h, if_neg h, mul_zero]
  rw [Finset.sum_congr rfl hinner,
    Finset.sum_ite_eq' (Finset.range N) j (fun jp => g jp * (N : ℂ)),
    if_pos (Finset.mem_range.mpr hj)]
  field_simp

theorem idft1_cdft1 (N : ℕ) (g : ℕ → ℂ) {j : ℕ} (hj : j < N) :
    idft1 N (cdft1 N g) j = g ((N - j) % N) := by
  have hN : 0 < N := lt_of_le_of_lt (Nat.zero_le j) hj
  have hNC : (N : ℂ) ≠ 0 := Nat.cast_ne_zero.mpr hN.ne'
  rw [idft1]
  have hstep : ∀ k ∈ Finset.range N, cdft1 N g k * cisN N ((k : ℤ) * (j : ℤ)) =
      ∑ jp in Finset.range N, g jp * cisN N ((k : ℤ) * ((j : ℤ) + (jp : ℤ))) := by
    intro k _
    rw [cdft1, Finset.sum_mul]
    refine Finset.sum_congr rfl fun jp _ => ?_
    rw [mul_assoc, ← cisN_add]
    congr 2
    ring
  rw [Finset.sum_congr rfl hstep, Finset.sum_comm]
  have hinner : ∀ jp ∈ Finset.range N,
      (∑ k in Finset.range N, g jp * cisN N ((k : ℤ) * ((j : ℤ) + (jp : ℤ)))) =
        if jp = (N - j) % N then g jp * (N : ℂ) else 0 := by
    intro jp hjp
    rw [← Finset.mul_sum, sum_cisN]
    simp only [small_dvd_add hj (Finset.mem_range.mp hjp)]
    by_cases h : jp = (N - j) % N
    · rw [if_pos h, if_pos h]
    · rw [if_neg h, if_neg h, mul_zero]
  rw [Finset.sum_congr rfl hinner,
    Finset.sum_ite_eq' (Finset.range N) ((N - j) % N) (fun jp => g jp * (N : ℂ)),
    if_pos (Finset.mem_range.mpr (Nat.mod_lt _ hN))]
  field_simp

theorem fft2val_as_dft1 (H W : ℕ) (f : ℕ → ℕ → ℂ) (u v : ℕ) :
    fft2val H W f u v = dft1 W (fun xp => dft1 H (fun yp => f yp xp) u) v := by
  simp only [fft2val, dft1, Finset.sum_mul]
  rw [Finset.sum_comm]
  refine Finset.sum_congr rfl fun xp _ => Finset.sum_congr rfl fun yp _ => ?_
  rw [mul_assoc (f yp xp)]
  congr 1
  rw [cisN, cisN, ← Complex.exp_add]
  congr 1
  push_cast
  ring

theorem ifft2val_as_idft1 (H W : ℕ) (g : ℕ → ℕ → ℂ) (y x : ℕ) :
    ifft2val H W g y x = idft1 H (fun u => idft1 W (fun v => g u v) x) y := by
  rw [ifft2val, idft1]
  have h1 : ∀ u ∈ Finset.range H,
      idft1 W (fun v => g u v) x * cisN H ((u : ℤ) * (y : ℤ)) =
        (1 / (W : ℂ)) * ∑ v in Finset.range W,
          g u v * cisN W ((v : ℤ) * (x : ℤ)) * cisN H ((u : ℤ) * (y : ℤ)) := by
    intro u _
    rw [idft1, mul_assoc, Finset.sum_mul]
  rw [Finset.sum_congr rfl h1, ← Finset.mul_sum, ← mul_assoc]
  congr 1
  · rw [one_div, one_div, one_div, mul_inv]
  · refine Finset.sum_congr rfl fun u _ => Finset.sum_congr rfl fun v _ => ?_
    rw [mul_assoc (g u v)]
    congr 1
    rw [cisN, cisN, ← Complex.exp_add]
    congr 1
    push_cast
    ring

theorem ifft2_fft2 (H W : ℕ) (f : ℕ → ℕ → ℂ) {y x : ℕ} (hy : y < H) (hx : x < W) :
    ifft2val H W (fun u v => fft2val H W f u v) y x = f y x := by
  rw [ifft2val_as_idft1]
  have hinner : ∀ u : ℕ, idft1 W (fun v => fft2val H W f u v) x =
      dft1 H (fun yp => f yp x) u := by
    intro u
    have heq : (fun v => fft2val H W f u v) =
        fun v => dft1 W (fun xp => dft1 H (fun yp => f yp xp) u) v :=
      funext fun v => fft2val_as_dft1 H W f u v
    rw [heq]
    exact idft1_dft1 W _ hx
  have heq2 : (fun u => idft1 W (fun v => fft2val H W f u v) x) =
      fun u => dft1 H (fun yp => f yp x) u := funext hinner
  rw [heq2]
  exact idft1_dft1 H _ hy

theorem conjfft_as_cdft1 (H W : ℕ) (d : ℕ → ℕ → ℝ) (u v : ℕ) :
    (starRingEnd ℂ) (fft2val H W (fun a b => ((d a b : ℝ) : ℂ)) u v) =
      cdft1 W (fun xp => cdft1 H (fun yp => ((d yp xp : ℝ) : ℂ)) u) v := by
  simp only [fft2val, map_sum, cdft1, Finset.sum_mul]
  rw [Finset.sum_comm]
  refine Finset.sum_congr rfl fun xp _ => Finset.sum_congr rfl fun yp _ => ?_
  rw [map_mul, Complex.conj_ofReal, mul_assoc (((d yp xp : ℝ) : ℂ))]
  congr 1
  rw [← Complex.exp_conj]
  rw [cisN, cisN, ← Complex.exp_add]
  congr 1
  simp only [map_neg, map_mul, map_add, map_div₀, Complex.conj_I, Complex.conj_ofReal,
    map_ofNat, map_natCast]
  push_cast
  ring

theorem ifft2_conj_fft2 (H W : ℕ) (d : ℕ → ℕ → ℝ) {y x : ℕ} (hy : y < H) (hx : x < W) :
    ifft2val H W
      (fun u v => (starRingEnd ℂ) (fft2val H W (fun a b => ((d a b : ℝ) : ℂ)) u v)) y x =
      ((d ((H - y) % H) ((W - x) % W) : ℝ) : ℂ) := by
  rw [ifft2val_as_idft1]
  have hinner : ∀ u : ℕ,
      idft1 W (fun v =>
        (starRingEnd ℂ) (fft2val H W (fun a b => ((d a b : ℝ) : ℂ)) u v)) x =
      cdft1 H (fun yp => ((d yp ((W - x) % W) : ℝ) : ℂ)) u := by
    intro u
    have heq : (fun v =>
        (starRingEnd ℂ) (fft2val H W (fun a b => ((d a b : ℝ) : ℂ)) u v)) =
        fun v => cdft1 W (fun xp => cdft1 H (fun yp => ((d yp xp : ℝ) : ℂ)) u) v :=
      funext fun v => conjfft_as_cdft1 H W d u v
    rw [heq]
    exact idft1_cdft1 W _ hx
  have heq2 := funext hinner
  rw [heq2]
  exact idft1_cdft1 H _ hy

theorem ifft2val_add (H W : ℕ) (g1 g2 : ℕ → ℕ → ℂ) (y x : ℕ) :
    ifft2val H W (fun u v => g1 u v + g2 u v) y x =
      ifft2val H W g1 y x + ifft2val H W g2 y x := by
  rw [ifft2val, ifft2val, ifft2val, ← mul_add]
  congr 1
  rw [← Finset.sum_add_distrib]
  refine Finset.sum_congr rfl fun u _ => ?_
  rw [← Finset.sum_add_distrib]
  refine Finset.sum_congr rfl fun v _ => ?_
  ring

theorem ifft2val_smul (H W : ℕ) (c : ℂ) (g : ℕ → ℕ → ℂ) (y x : ℕ) :
    ifft2val H W (fun u v => c * g u v) y x = c * ifft2val H W g y x := by
  rw [ifft2val, ifft2val]
  have hsum : ∑ u in Finset.range H, ∑ v in Finset.range W,
      c * g u v * Complex.exp ((2 * (Real.pi : ℂ) * Complex.I) *
        ((u : ℂ) * (y : ℂ) / (H : ℂ) + (v : ℂ) * (x : ℂ) / (W : ℂ))) =
      c * ∑ u in Finset.range H, ∑ v in Finset.range W,
        g u v * Complex.exp ((2 * (Real.pi : ℂ) * Complex.I) *
          ((u : ℂ) * (y : ℂ) / (H : ℂ) + (v : ℂ) * (x : ℂ) / (W : ℂ))) := by
    rw [Finset.mul_sum]
    refine Finset.sum_congr rfl fun u _ => ?_
    rw [Finset.mul_sum]
    refine Finset.sum_congr rfl fun v _ => ?_
    ring
  rw [hsum]
  ring

theorem ifft_re_fft (H W : ℕ) (d : ℕ → ℕ → ℝ) {y x : ℕ} (hy : y < H) (hx : x < W) :
    ifft2val H W
      (fun u v => (((fft2val H W (fun a b => ((d a b : ℝ) : ℂ)) u v).re : ℝ) : ℂ)) y x =
      (((d y x + d ((H - y) % H) ((W - x) % W)) / 2 : ℝ) : ℂ) := by
  have hre : (fun u v =>
      (((fft2val H W (fun a b => ((d a b : ℝ) : ℂ)) u v).re : ℝ) : ℂ)) =
      fun u v => (1 / 2 : ℂ) *
        (fft2val H W (fun a b => ((d a b : ℝ) : ℂ)) u v +
          (starRingEnd ℂ) (fft2val H W (fun a b => ((d a b : ℝ) : ℂ)) u v)) := by
    funext u v
    rw [Complex.add_conj]
    push_cast
    ring
  rw [hre, ifft2val_smul, ifft2val_add, ifft2_fft2 H W _ hy hx, ifft2_conj_fft2 H W d hy hx]
  push_cast
  ring

theorem shift_cancel {H i : ℕ} (hi : i < H) :
    ((i + H / 2) % H + H - H / 2) % H = i := by
  have hs : H / 2 ≤ H := Nat.div_le_self H 2
  have hmod : (i + H / 2) % H + H - H / 2 = (i + H / 2) % H + (H - H / 2) := by omega
  rw [hmod, Nat.mod_add_mod]
  have harith : i + H / 2 + (H - H / 2) = i + H := by omega
  rw [harith, Nat.add_mod_right, Nat.mod_eq_of_lt hi]

/-! ### The single-active-slot / `FT Real` / no-mask pipeline -/

theorem ifft2val_congr (H W : ℕ) (g1 g2 : ℕ → ℕ → ℂ)
    (h : ∀ u, u < H → ∀ v, v < W → g1 u v = g2 u v) (y x : ℕ) :
    ifft2val H W g1 y x = ifft2val H W g2 y x := by
  rw [ifft2val, ifft2val]
  congr 1
  refine Finset.sum_congr rfl fun u hu => Finset.sum_congr rfl fun v hv => ?_
  rw [h u (Finset.mem_range.mp hu) v (Finset.mem_range.mp hv)]

theorem matVals_congr (H W : ℕ) (f g : ℕ → ℕ → ℝ)
    (h : ∀ a, a < H → ∀ b, b < W → f a b = g a b) :
    matVals H W f = matVals H W g := by
  rw [matVals, matVals]
  apply Finset.image_congr
  intro p hp
  rw [Finset.mem_coe, grid, Finset.mem_product] at hp
  exact h p.1 (Finset.mem_range.mp hp.1) p.2 (Finset.mem_range.mp hp.2)

theorem cvNormalize_congr_on (H W : ℕ) (f g : ℕ → ℕ → ℝ)
    (h : ∀ a, a < H → ∀ b, b < W → f a b = g a b) {y x : ℕ}
    (hy : y < H) (hx : x < W) :
    cvNormalize H W f y x = cvNormalize H W g y x := by
  have hv : matVals H W f = matVals H W g := matVals_congr H W f g h
  rw [cvNormalize, cvNormalize, matMax, matMin, matMax, matMin, hv, h y hy x hx]

theorem addInPlace_exact (acc b : NpArr) (hh : b.h = acc.h) (hw : b.w = acc.w) :
    addInPlace acc b =
      .ok ⟨acc.h, acc.w, fun y x => acc.f y x + b.f (bidx b.h y) (bidx b.w x)⟩ := by
  rw [addInPlace, if_pos ⟨Or.inl hh, Or.inl hw⟩]

theorem slotStep0_singleReal (gm : ℕ → ℕ → ℝ) (H W : ℕ) (img : PyImage)
    (s1 s2 s3 : String) (acc : NpArr) (hh : img.height = H) (hw : img.width = W)
    (hah : acc.h = H) (haw : acc.w = W) :
    slotStep noneText gm H W [some img, none, none, none] wts1000
      [ftRealText, s1, s2, s3] acc 0 =
      .ok ⟨H, W, fun y x =>
        acc.f y x + realWeighted 1
          ((fftshiftA (fft2 img)).f (bidx img.height y) (bidx img.width x))⟩ := by
  subst hah
  subst haw
  rw [slotStep]
  simp only [List.get?, wts1000]
  rw [if_neg (one_ne_zero : (1 : ℝ) ≠ 0)]
  rw [apply_region_mask, if_pos rfl]
  show addInPlace acc ⟨(fftshiftA (fft2 img)).h, (fftshiftA (fft2 img)).w,
      fun y x => realWeighted 1 ((fftshiftA (fft2 img)).f y x)⟩ = _
  rw [addInPlace, if_pos ⟨Or.inl hh, Or.inl hw⟩]
  rfl

theorem runSlots_cons (step : NpArr → ℕ → Except NpError NpArr) (acc : NpArr)
    (i : ℕ) (rest : List ℕ) :
    runSlots step acc (i :: rest) =
      match step acc i with
      | .error e => .error e
      | .ok acc2 => runSlots step acc2 rest := by
  rw [runSlots]

theorem mixCombined_singleReal (img : PyImage) (s1 s2 s3 : String) (reg : List ℝ)
    (sigma : ℝ) (hreg : reg.get? 2 = some sigma) :
    mixCombined noneText [some img, none, none, none] wts1000
      [ftRealText, s1, s2, s3] reg img.height img.width =
      .ok ⟨img.height, img.width, fun a b =>
        0 + realWeighted 1
          ((fftshiftA (fft2 img)).f (bidx img.height a) (bidx img.width b))⟩ := by
  rw [mixCombined, hreg]
  show runSlots (slotStep noneText (create_gaussian_mask img.height img.width sigma)
      img.height img.width [some img, none, none, none] wts1000 [ftRealText, s1, s2, s3])
      ⟨img.height, img.width, fun _ _ => 0⟩ [0, 1, 2, 3] = _
  rw [runSlots_cons,
    slotStep0_singleReal (create_gaussian_mask img.height img.width sigma)
      img.height img.width img s1 s2 s3 ⟨img.height, img.width, fun _ _ => 0⟩
      rfl rfl rfl rfl]
  rfl

theorem reconstruct_singleReal (img : PyImage) {y x : ℕ}
    (hy : y < img.height) (hx : x < img.width) :
    reconstruct img.height img.width
      ⟨img.height, img.width, fun a b =>
        0 + realWeighted 1
          ((fftshiftA (fft2 img)).f (bidx img.height a) (bidx img.width b))⟩ y x =
      absEvenPart img.height img.width img.data y x := by
  have hH : 0 < img.height := lt_of_le_of_lt (Nat.zero_le y) hy
  have hW : 0 < img.width := lt_of_le_of_lt (Nat.zero_le x) hx
  rw [reconstruct]
  have hpt : ∀ u, u < img.height → ∀ v, v < img.width →
      ifftshiftF img.height img.width (fun a b =>
        0 + realWeighted 1
          ((fftshiftA (fft2 img)).f (bidx img.height a) (bidx img.width b))) u v =
      (((fft2val img.height img.width
          (fun a b => ((img.data a b : ℝ) : ℂ)) u v).re : ℝ) : ℂ) := by
    intro u hu v hv
    rw [ifftshiftF]
    rw [bidx_eq_of_lt (Nat.mod_lt _ hH), bidx_eq_of_lt (Nat.mod_lt _ hW)]
    show (0 : ℂ) + realWeighted 1 ((fft2 img).f
        (((u + img.height / 2) % img.height + img.height - img.height / 2) % img.height)
        (((v + img.width / 2) % img.width + img.width - img.width / 2) % img.width)) = _
    rw [shift_cancel hu, shift_cancel hv]
    show (0 : ℂ) + realWeighted 1
        (fft2val img.height img.width (fun a b => ((img.data a b : ℝ) : ℂ)) u v) = _
    rw [realWeighted]
    push_cast
    ring
  rw [ifft2val_congr _ _ _ _ hpt y x]
  rw [ifft_re_fft img.height img.width img.data hy hx]
  rw [Complex.abs_ofReal]
  rw [absEvenPart]

theorem mix_singleReal_spec (H W : ℕ) (hH : 1 ≤ H) (hW : 1 ≤ W) (img : PyImage)
    (hh : img.height = H) (hw : img.width = W) (s1 s2 s3 : String) (reg : List ℝ)
    (sigma : ℝ) (hreg : reg.get? 2 = some sigma) :
    SingleRealSpec H W img.data
      (mix_images noneText [some img, none, none, none] wts1000
        [ftRealText, s1, s2, s3] reg (some H) (some W)) := by
  subst hh
  subst hw
  have hmix : mix_images noneText [some img, none, none, none] wts1000
      [ftRealText, s1, s2, s3] reg (some img.height) (some img.width) =
      .ok (finalizeImg img.height img.width (reconstruct img.height img.width
        ⟨img.height, img.width, fun a b =>
          0 + realWeighted 1
            ((fftshiftA (fft2 img)).f (bidx img.height a) (bidx img.width b))⟩)) := by
    rw [mix_images_some, mixCombined_singleReal img s1 s2 s3 reg sigma hreg]
  refine ⟨_, hmix, rfl, rfl, ?_⟩
  intro y x hy hx
  show toUint8 (cvNormalize img.height img.width (reconstruct img.height img.width
      ⟨img.height, img.width, fun a b =>
        0 + realWeighted 1
          ((fftshiftA (fft2 img)).f (bidx img.height a) (bidx img.width b))⟩) y x) =
    toUint8 (cvNormalize img.height img.width
      (absEvenPart img.height img.width img.data) y x)
  exact congrArg toUint8 (cvNormalize_congr_on img.height img.width _ _
    (fun a ha b hb => reconstruct_singleReal img ha hb) hy hx)

/-- C7, amended: with region mode `None`, a single active slot (slot 0)
holding a real image of the target dimensions with weight 1.0 and selector
`FT Real`, the other slots absent, `mix_images` returns the min-max
normalised, 8-bit truncated absolute even-symmetrisation
`|(f(y,x) + f((H-y) mod H, (W-x) mod W))/2|` of the input — not the input
itself in general. -/
theorem mix_single_real_characterization (H W : ℕ) (hH : 1 ≤ H) (hW : 1 ≤ W)
    (img : PyImage) (hh : img.height = H) (hw : img.width = W)
    (s1 s2 s3 : String) (reg : List ℝ) (sigma : ℝ)
    (hreg : reg.get? 2 = some sigma) :
    SingleRealSpec H W img.data
      (mix_images noneText [some img, none, none, none] wts1000
        [ftRealText, s1, s2, s3] reg (some H) (some W)) :=
  mix_singleReal_spec H W hH hW img hh hw s1 s2 s3 reg sigma hreg

/-- Witness for the amended C7 at the `1×2` image `[10, 20]`. -/
theorem mix_single_real_characterization_witness :
    (1 : ℕ) ≤ 1 ∧ (1 : ℕ) ≤ 2 ∧ imgC7.height = 1 ∧ imgC7.width = 2 ∧
    regDefault.get? 2 = some 1 ∧
    SingleRealSpec 1 2 imgC7.data
      (mix_images noneText [some imgC7, none, none, none] wts1000
        [ftRealText, ftRealText, ftRealText, ftRealText] regDefault
        (some 1) (some 2)) :=
  ⟨le_refl 1, by norm_num, rfl, rfl, rfl,
   mix_single_real_characterization 1 2 (le_refl 1) (by norm_num) imgC7 rfl rfl
     ftRealText ftRealText ftRealText regDefault 1 rfl⟩

/-! ### Concrete evaluation at the `1×2` image `[10, 20]` -/

theorem matMax_le_of (H W : ℕ) (f : ℕ → ℕ → ℝ) (b : ℝ) (hH : 0 < H) (hW : 0 < W)
    (hb : ∀ a, a < H → ∀ c, c < W → f a c ≤ b) : matMax H W f ≤ b := by
  have hne : (matVals H W f).Nonempty := ⟨f 0 0, mem_matVals H W f hH hW⟩
  have hrw : matMax H W f = (matVals H W f).max' hne := by
    rw [matMax, ← Finset.coe_max' hne, WithBot.unbot'_coe]
  rw [hrw]
  apply Finset.max'_le
  intro a ha
  rw [matVals, grid] at ha
  obtain ⟨p, hp, rfl⟩ := Finset.mem_image.mp ha
  rw [Finset.mem_product] at hp
  exact hb p.1 (Finset.mem_range.mp hp.1) p.2 (Finset.mem_range.mp hp.2)

theorem le_matMin_of (H W : ℕ) (f : ℕ → ℕ → ℝ) (b : ℝ) (hH : 0 < H) (hW : 0 < W)
    (hb : ∀ a, a < H → ∀ c, c < W → b ≤ f a c) : b ≤ matMin H W f := by
  have hne : (matVals H W f).Nonempty := ⟨f 0 0, mem_matVals H W f hH hW⟩
  have hrw : matMin H W f = (matVals H W f).min' hne := by
    rw [matMin, ← Finset.coe_min' hne, WithTop.untop'_coe]
  rw [hrw]
  apply Finset.le_min'
  intro a ha
  rw [matVals, grid] at ha
  obtain ⟨p, hp, rfl⟩ := Finset.mem_image.mp ha
  rw [Finset.mem_product] at hp
  exact hb p.1 (Finset.mem_range.mp hp.1) p.2 (Finset.mem_range.mp hp.2)

theorem absEvenC7_00 : absEvenPart 1 2 imgC7.data 0 0 = 10 := by
  rw [absEvenPart]
  norm_num [imgC7]

theorem absEvenC7_01 : absEvenPart 1 2 imgC7.data 0 1 = 20 := by
  rw [absEvenPart]
  norm_num [imgC7]

theorem matMaxAEC7 : matMax 1 2 (absEvenPart 1 2 imgC7.data) = 20 := by
  apply le_antisymm
  · apply matMax_le_of 1 2 _ 20 (by norm_num) (by norm_num)
    intro a ha c hc
    interval_cases a
    interval_cases c
    · rw [absEvenC7_00]
      norm_num
    · rw [absEvenC7_01]
  · have h := le_matMax 1 2 (absEvenPart 1 2 imgC7.data)
      (show 0 < 1 by norm_num) (show 1 < 2 by norm_num)
    rw [absEvenC7_01] at h
    exact h

theorem matMinAEC7 : matMin 1 2 (absEvenPart 1 2 imgC7.data) = 10 := by
  apply le_antisymm
  · have h := matMin_le 1 2 (absEvenPart 1 2 imgC7.data)
      (show 0 < 1 by norm_num) (show 0 < 2 by norm_num)
    rw [absEvenC7_00] at h
    exact h
  · apply le_matMin_of 1 2 _ 10 (by norm_num) (by norm_num)
    intro a ha c hc
    interval_cases a
    interval_cases c
    · rw [absEvenC7_00]
    · rw [absEvenC7_01]
      norm_num

theorem cvNormalizeC7_01 :
    toUint8 (cvNormalize 1 2 (absEvenPart 1 2 imgC7.data) 0 1) = 255 := by
  have harg : ((20 : ℝ) - 10) * (255 / (20 - 10)) = 255 := by norm_num
  rw [cvNormalize, matMaxAEC7, matMinAEC7, if_neg (by norm_num), absEvenC7_01,
    harg, toUint8_255]

/-- C7, counterexample: for the `1×2` input image `[10, 20]`, the single
active-slot `FT Real` call with weight 1.0 and region mode `None` does not
reproduce the original (in exact arithmetic, so not within any fp
tolerance either): the output pixel at `(0, 1)` is 255 where the original
is 20 — min-max normalisation rescales the reconstruction. -/
theorem mix_single_real_roundtrip_cx :
    outProbe (mix_images noneText [some imgC7, none, none, none] wts1000
        [ftRealText, ftRealText, ftRealText, ftRealText] regDefault
        (some 1) (some 2)) =
      some (1, 2, 255) ∧
    imgC7.data 0 1 = 20 ∧ (255 : ℕ) ≠ 20 := by
  obtain ⟨out, hmix, hh, hw, hval⟩ := mix_singleReal_spec 1 2 (le_refl 1) (by norm_num)
    imgC7 rfl rfl ftRealText ftRealText ftRealText regDefault 1 rfl
  have h01 : out.f 0 1 = 255 := by
    rw [hval 0 1 (by norm_num) (by norm_num), cvNormalizeC7_01]
  refine ⟨?_, ?_, by norm_num⟩
  · rw [outProbe, hmix]
    simp [Except.toOption, hh, hw, h01]
  · show (if 1 = 0 then (10 : ℝ) else 20) = 20
    norm_num

/-! ### Shape mismatches are silently broadcast, not validated -/

theorem fft2_row12_zero : ∀ u v : ℕ, (fft2 imgRow12).f u v = 0 := by
  intro u v
  show fft2val 1 2 (fun y x => ((imgRow12.data y x : ℝ) : ℂ)) u v = 0
  rw [fft2val]
  simp [imgRow12]

theorem slotStep0_row12 (gm : ℕ → ℕ → ℝ) (acc : NpArr)
    (hah : acc.h = 2) (haw : acc.w = 2) :
    slotStep noneText gm 2 2 [some imgRow12, none, none, none] wts1000 selsReal4 acc 0 =
      .ok ⟨acc.h, acc.w, fun y x =>
        acc.f y x + realWeighted 1
          ((fftshiftA (fft2 imgRow12)).f (bidx 1 y) (bidx 2 x))⟩ := by
  rw [slotStep]
  simp only [List.get?, wts1000, selsReal4]
  rw [if_neg (one_ne_zero : (1 : ℝ) ≠ 0)]
  rw [apply_region_mask, if_pos rfl]
  show addInPlace acc ⟨(fftshiftA (fft2 imgRow12)).h, (fftshiftA (fft2 imgRow12)).w,
      fun y x => realWeighted 1 ((fftshiftA (fft2 imgRow12)).f y x)⟩ = _
  rw [addInPlace, if_pos ⟨Or.inr rfl, Or.inl haw.symm⟩]
  rfl

theorem mixCombined_row12 :
    mixCombined noneText [some imgRow12, none, none, none] wts1000 selsReal4
      regDefault 2 2 =
      .ok ⟨2, 2, fun y x =>
        0 + realWeighted 1
          ((fftshiftA (fft2 imgRow12)).f (bidx 1 y) (bidx 2 x))⟩ := by
  rw [mixCombined]
  have hr : regDefault.get? 2 = some (1 : ℝ) := rfl
  rw [hr]
  show runSlots (slotStep noneText (create_gaussian_mask 2 2 1) 2 2
      [some imgRow12, none, none, none] wts1000 selsReal4)
      ⟨2, 2, fun _ _ => 0⟩ [0, 1, 2, 3] = _
  rw [runSlots_cons, slotStep0_row12 (create_gaussian_mask 2 2 1)
    ⟨2, 2, fun _ _ => 0⟩ rfl rfl]
  rfl

theorem mix_row12 :
    mix_images noneText [some imgRow12, none, none, none] wts1000 selsReal4
      regDefault (some 2) (some 2) = .ok (zeroImg 2 2) := by
  rw [mix_images_some, mixCombined_row12]
  show Except.ok (finalizeImg 2 2 (reconstruct 2 2
      ⟨2, 2, fun y x => 0 + realWeighted 1
        ((fftshiftA (fft2 imgRow12)).f (bidx 1 y) (bidx 2 x))⟩)) = _
  have hcf : (⟨2, 2, fun y x => 0 + realWeighted 1
      ((fftshiftA (fft2 imgRow12)).f (bidx 1 y) (bidx 2 x))⟩ : NpArr) =
      zeroArr 2 2 := by
    rw [zeroArr]
    congr 1
    funext y x
    simp only [fftshiftA]
    rw [fft2_row12_zero]
    simp [realWeighted]
  rw [hcf, reconstruct_zeroA, finalize_zeroF]

/-- C9: the code performs no dimensional-consistency validation.  With a
`1×2` active image and a `2×2` target (a genuine mismatch, `1 ≠ 2`, with a
nonzero weight), numpy's broadcasting silently stretches the row across
the accumulator and `mix_images` returns an ordinary `2×2` image with no
error — it does not fail fast. -/
theorem mix_shape_mismatch_no_error :
    imgRow12.height = 1 ∧ imgRow12.width = 2 ∧ (1 : ℕ) ≠ 2 ∧ (1 : ℝ) ≠ 0 ∧
    mix_images noneText [some imgRow12, none, none, none] wts1000 selsReal4
      regDefault (some 2) (some 2) = .ok (zeroImg 2 2) :=
  ⟨rfl, rfl, by norm_num, by norm_num, mix_row12⟩

/-- Witness for C4: all four slots absent, `1×1` target. -/
theorem mix_all_skipped_zero_witness :
    (1 : ℕ) ≤ 1 ∧ regDefault.get? 2 = some 1 ∧
    imgsNone4.get? 0 = some none ∧ imgsNone4.get? 1 = some none ∧
    imgsNone4.get? 2 = some none ∧ imgsNone4.get? 3 = some none ∧
    mix_images noneText imgsNone4 [] [] regDefault (some 1) (some 1) =
      .ok (zeroImg 1 1) :=
  ⟨le_refl 1, rfl, rfl, rfl, rfl, rfl,
   mix_all_skipped_zero noneText imgsNone4 [] [] regDefault 1 1 1
     (le_refl 1) (le_refl 1) rfl
     (fun i hi => by interval_cases i <;> exact Or.inl rfl)⟩

end

